import Mathlib

/-!
# Verification of the Merkle allowlist engine (`src/helpers/MerkleTree.ts`)

Shallow embedding of the `MerkleTree` class.  Node `Buffer` values are
modelled as `List Nat` of byte values; identity strings are modelled
directly by their raw byte sequences (the image of `Buffer.from`).  The
external hash `keccak_256.digest` from `js-sha3` is an imported library
primitive, not code of this repository, so every definition is
parameterised by an arbitrary digest function `keccak256 : Bytes → Bytes`;
all structural theorems below hold for every choice of digest, and
concrete examples instantiate it with the executable stand-in `toyHash`.

Fallible operations (out-of-bounds `Buffer` indexing, which throws a
`TypeError` in JavaScript) are rendered with `Option`: `none` is the
thrown error, `some` the normal return.
-/

/-- Bytes of a Node `Buffer`. -/
abbrev Bytes := List Nat

/-- `Buffer.compare a b`: byte-wise comparison, left to right; at the first
differing byte the smaller byte decides; if one sequence runs out first it
compares as smaller. -/
def bufCompare : Bytes → Bytes → Ordering
  | [], [] => Ordering.eq
  | [], _ :: _ => Ordering.lt
  | _ :: _, [] => Ordering.gt
  | a :: as, b :: bs =>
      if a < b then Ordering.lt
      else if b < a then Ordering.gt
      else bufCompare as bs

/-- `MerkleTree.nodeHash(data)`: `keccak_256.digest([0x00, ...data])` — the
tag byte `0x00` is consed in front of the data before hashing. -/
def nodeHash (keccak256 : Bytes → Bytes) (data : Bytes) : Bytes :=
  keccak256 (0 :: data)

/-- `MerkleTree.internalHash(first, second)`: an `undefined` second operand
(`none`) returns `first` unchanged; otherwise the two buffers are sorted by
`Buffer.compare` (a two-element JavaScript `sort`: swap exactly when the
comparison is greater) and `keccak_256.digest([0x01, ...fst, ...snd])` is
taken of the sorted pair. -/
def internalHash (keccak256 : Bytes → Bytes) (first : Bytes) (second : Option Bytes) : Bytes :=
  match second with
  | none => first
  | some snd =>
      if bufCompare first snd = Ordering.gt then keccak256 (1 :: (snd ++ first))
      else keccak256 (1 :: (first ++ snd))

/-- `MerkleTree.buildLeaves(data)`: pushes `Buffer.from(data[idx])` for each
index in order; identities being modelled by their byte sequences, the
conversion is the identity on each element. -/
def buildLeaves (data : List Bytes) : List Bytes :=
  data.map (fun d => d)

/-- One pass of the constructor's `reduce`: at each even index the current
hash is combined with its successor (`arr[idx + 1]`, which is `undefined`
past the end, so a trailing unpaired hash is carried through
`internalHash _ none`). -/
def combineLayer (keccak256 : Bytes → Bytes) : List Bytes → List Bytes
  | [] => []
  | [a] => [internalHash keccak256 a none]
  | a :: b :: rest => internalHash keccak256 a (some b) :: combineLayer keccak256 rest

/-- The constructor's `while` loop, rendered with a fuel argument to keep the
recursion structural: each iteration pushes the current hash list as a layer,
stops after pushing a singleton layer, and otherwise continues with the
combined next level.  `buildLayers` below supplies fuel provably sufficient
for the loop to run to completion, so the `0`-fuel arm is never reached on
the actual call. -/
def buildLayersF (keccak256 : Bytes → Bytes) : Nat → List Bytes → List (List Bytes)
  | _, [] => []
  | 0, _ :: _ => []
  | fuel + 1, a :: t =>
      if (a :: t).length = 1 then [a :: t]
      else (a :: t) :: buildLayersF keccak256 fuel (combineLayer keccak256 (a :: t))

/-- The layer list the constructor leaves in `this.layers`, starting from a
given hash list (layer 0). -/
def buildLayers (keccak256 : Bytes → Bytes) (hashes : List Bytes) : List (List Bytes) :=
  buildLayersF keccak256 hashes.length hashes

/-- The fields of a constructed `MerkleTree` instance. -/
structure MerkleTree where
  data : List Bytes
  leafs : List Bytes
  layers : List (List Bytes)

/-- The `MerkleTree` constructor: store the input, build the leaf buffers,
hash each into layer 0 and fold layers upward until a single hash remains. -/
def mkTree (keccak256 : Bytes → Bytes) (data : List Bytes) : MerkleTree :=
  let leafs := buildLeaves data
  { data := data
    leafs := leafs
    layers := buildLayers keccak256 (leafs.map (nodeHash keccak256)) }

/-- `layers[layers.length - 1][0]` on a layer list: the first element of the
last layer.  Indexing an empty layer list throws in JavaScript; that failure
is `none` here. -/
def rootOf (layers : List (List Bytes)) : Option Bytes :=
  layers.getLast?.bind List.head?

/-- `getRoot()`: `this.layers[this.layers.length - 1][0]`. -/
def getRoot (t : MerkleTree) : Option Bytes :=
  rootOf t.layers

/-- The body of `getProof`'s `reduce` over the layers: at each layer the
sibling index is `idx ^ 1`; the sibling hash is pushed exactly when that
index is in bounds, and the index is halved for the next layer. -/
def getProofAux : List (List Bytes) → Nat → List Bytes
  | [], _ => []
  | layer :: rest, idx =>
      (layer.get? (idx ^^^ 1)).toList ++ getProofAux rest (idx / 2)

/-- `getProof(idx)`: collect the in-bounds siblings layer by layer.  The
source performs no range check on `idx`. -/
def getProof (t : MerkleTree) (idx : Nat) : List Bytes :=
  getProofAux t.layers idx

/-- The verification loop shared by `verifyProof`, `verifyRoot` and
`verifyClaim`: fold the proof elements, in order, into the running pair
hash with `internalHash`. -/
def foldPairs (keccak256 : Bytes → Bytes) (start : Bytes) (proof : List Bytes) : Bytes :=
  proof.foldl (fun pair item => internalHash keccak256 pair (some item)) start

/-- `verifyProof(idx, proof, root)`: start from `nodeHash(this.leafs[idx])`
(`none` when `idx` is out of bounds — spreading `undefined` throws), fold
the proof, and compare byte-for-byte with the supplied root. -/
def verifyProof (keccak256 : Bytes → Bytes) (t : MerkleTree) (idx : Nat)
    (proof : List Bytes) (root : Bytes) : Option Bool :=
  (t.leafs.get? idx).map
    (fun leaf => foldPairs keccak256 (nodeHash keccak256 leaf) proof == root)

/-- `verifyRoot(idx, proof, root)`: byte-for-byte the same body as
`verifyProof`. -/
def verifyRoot (keccak256 : Bytes → Bytes) (t : MerkleTree) (idx : Nat)
    (proof : List Bytes) (root : Bytes) : Option Bool :=
  (t.leafs.get? idx).map
    (fun leaf => foldPairs keccak256 (nodeHash keccak256 leaf) proof == root)

/-- `verifyClaim(item, proof)`: hash the raw candidate bytes into a leaf,
fold the proof, and compare with `this.getRoot()` — the root of the locally
constructed tree; the method takes no root parameter.  `none` renders the
`getRoot` failure on an empty tree. -/
def verifyClaim (keccak256 : Bytes → Bytes) (t : MerkleTree) (item : Bytes)
    (proof : List Bytes) : Option Bool :=
  (getRoot t).map
    (fun root => foldPairs keccak256 (nodeHash keccak256 item) proof == root)

/-- Spec-side reading of §4.1: byte-wise lexicographic less-or-equal on byte
sequences, written independently of `bufCompare`. -/
def lexLe : Bytes → Bytes → Bool
  | [], _ => true
  | _ :: _, [] => false
  | a :: as, b :: bs => decide (a < b) || (decide (a = b) && lexLe as bs)

/-- Spec-side `min(a, b)` under byte-wise lexicographic order. -/
def specMin (a b : Bytes) : Bytes :=
  if lexLe a b then a else b

/-- Spec-side `max(a, b)` under byte-wise lexicographic order. -/
def specMax (a b : Bytes) : Bytes :=
  if lexLe a b then b else a

/-- An executable stand-in digest used to run the development on concrete
examples (the theorems themselves hold for every digest function). -/
def toyHash (l : Bytes) : Bytes :=
  [l.foldl (fun a b => a * 31 + b + 1) 7]

/-! ## Basic facts about the comparison and the pair hash -/

/-- Sibling index arithmetic: toggling the lowest bit of `idx` adds one to an
even index and subtracts one from an odd index. -/
theorem xor_one_eq (n : Nat) : n ^^^ 1 = if n % 2 = 0 then n + 1 else n - 1 := by
  induction n using Nat.bitCasesOn with
  | h b m =>
    have h1 : (1 : Nat) = Nat.bit true 0 := by simp [Nat.bit_val]
    rw [h1, Nat.xor_bit]
    cases b <;> simp [Nat.bit_val, Nat.mul_add_mod]

/-- `bufCompare` of a sequence with itself is `eq`. -/
theorem bufCompare_self : ∀ a : Bytes, bufCompare a a = Ordering.eq
  | [] => rfl
  | a :: as => by simp [bufCompare, bufCompare_self as]

/-- `bufCompare` returns `eq` only on identical byte sequences. -/
theorem eq_of_bufCompare_eq : ∀ a b : Bytes, bufCompare a b = Ordering.eq → a = b
  | [], [], _ => rfl
  | [], _ :: _, h => by simp [bufCompare] at h
  | _ :: _, [], h => by simp [bufCompare] at h
  | a :: as, b :: bs, h => by
      by_cases h1 : a < b
      · rw [bufCompare, if_pos h1] at h
        exact absurd h (by decide)
      · by_cases h2 : b < a
        · rw [bufCompare, if_neg h1, if_pos h2] at h
          exact absurd h (by decide)
        · have hab : a = b := by omega
          rw [bufCompare, if_neg h1, if_neg h2] at h
          rw [hab, eq_of_bufCompare_eq as bs h]

/-- Swapping the operands of `bufCompare` swaps the verdict. -/
theorem bufCompare_swap : ∀ a b : Bytes, bufCompare b a = (bufCompare a b).swap
  | [], [] => rfl
  | [], _ :: _ => rfl
  | _ :: _, [] => rfl
  | a :: as, b :: bs => by
      by_cases h1 : a < b
      · have h2 : ¬b < a := by omega
        simp [bufCompare, h1, h2, Ordering.swap]
      · by_cases h2 : b < a
        · simp [bufCompare, h1, h2, Ordering.swap]
        · simp [bufCompare, h1, h2, bufCompare_swap as bs]

/-- The sorted pairwise combination does not care about the order of its two
(present) operands. -/
theorem internalHash_comm (keccak256 : Bytes → Bytes) (a b : Bytes) :
    internalHash keccak256 a (some b) = internalHash keccak256 b (some a) := by
  rcases h : bufCompare a b with hlt | heq | hgt
  · have h2 : bufCompare b a = Ordering.gt := by rw [bufCompare_swap, h]; rfl
    simp [internalHash, h, h2]
  · have hab : a = b := eq_of_bufCompare_eq a b h
    subst hab
    rfl
  · have h2 : bufCompare b a ≠ Ordering.gt := by
      rw [bufCompare_swap, h]
      decide
    simp [internalHash, h, h2]

/-- Folding one more sibling into the running hash. -/
theorem foldPairs_cons (keccak256 : Bytes → Bytes) (start s : Bytes) (proof : List Bytes) :
    foldPairs keccak256 start (s :: proof) =
      foldPairs keccak256 (internalHash keccak256 start (some s)) proof := rfl

/-- Folding an empty proof returns the starting hash. -/
theorem foldPairs_nil (keccak256 : Bytes → Bytes) (start : Bytes) :
    foldPairs keccak256 start [] = start := rfl

/-! ## Facts about one combination pass -/

/-- One combination pass halves the layer length, rounding up. -/
theorem combineLayer_length (keccak256 : Bytes → Bytes) :
    ∀ l : List Bytes, (combineLayer keccak256 l).length = (l.length + 1) / 2
  | [] => rfl
  | [_] => by simp [combineLayer]
  | _ :: _ :: rest => by
      simp [combineLayer, combineLayer_length keccak256 rest]
      omega

/-- A combination pass over a non-empty layer is non-empty. -/
theorem combineLayer_ne_nil (keccak256 : Bytes → Bytes) {l : List Bytes} (h : l ≠ []) :
    combineLayer keccak256 l ≠ [] := by
  have hl : 0 < l.length := List.length_pos.mpr h
  have := combineLayer_length keccak256 l
  intro hc
  rw [hc] at this
  simp at this
  omega

/-- On an odd-length layer the trailing unpaired hash survives the
combination pass as the last element, byte-identical. -/
theorem combineLayer_getLast_odd (keccak256 : Bytes → Bytes) :
    ∀ l : List Bytes, l.length % 2 = 1 →
      (combineLayer keccak256 l).getLast? = l.getLast?
  | [], h => by simp at h
  | [a], _ => by simp [combineLayer, internalHash]
  | a :: b :: rest, h => by
      have hrest : rest.length % 2 = 1 := by
        simp at h
        omega
      have hne : rest ≠ [] := by
        intro hc
        rw [hc] at hrest
        simp at hrest
      match hr : combineLayer keccak256 rest with
      | [] => exact absurd hr (combineLayer_ne_nil keccak256 hne)
      | d :: ds =>
          match rest, hne with
          | c :: cs, _ =>
              rw [combineLayer, hr, List.getLast?_cons_cons, ← hr,
                combineLayer_getLast_odd keccak256 (c :: cs) hrest,
                List.getLast?_cons_cons, List.getLast?_cons_cons]

/-! ## The layer construction loop -/

/-- Any two sufficient fuel values produce the same layer list, so the loop
rendering is fuel-independent on the constructor's actual call. -/
theorem buildLayersF_irrel (keccak256 : Bytes → Bytes) :
    ∀ f1 f2 hashes, hashes.length ≤ f1 → hashes.length ≤ f2 →
      buildLayersF keccak256 f1 hashes = buildLayersF keccak256 f2 hashes := by
  intro f1
  induction f1 with
  | zero =>
      intro f2 hashes h1 _
      have hnil : hashes = [] := by
        cases hashes
        · rfl
        · simp at h1
      subst hnil
      cases f2 <;> rfl
  | succ g1 ih =>
      intro f2 hashes h1 h2
      cases hashes with
      | nil => cases f2 <;> rfl
      | cons a t =>
          cases f2 with
          | zero => simp at h2
          | succ g2 =>
              show (if (a :: t).length = 1 then [a :: t]
                    else (a :: t) ::
                      buildLayersF keccak256 g1 (combineLayer keccak256 (a :: t)))
                  = (if (a :: t).length = 1 then [a :: t]
                    else (a :: t) ::
                      buildLayersF keccak256 g2 (combineLayer keccak256 (a :: t)))
              simp only [List.length_cons] at h1 h2
              by_cases hlen : (a :: t).length = 1
              · rw [if_pos hlen, if_pos hlen]
              · rw [if_neg hlen, if_neg hlen]
                have hc : (combineLayer keccak256 (a :: t)).length = ((a :: t).length + 1) / 2 :=
                  combineLayer_length keccak256 (a :: t)
                simp only [List.length_cons] at hc hlen
                have hg1 : (combineLayer keccak256 (a :: t)).length ≤ g1 := by omega
                have hg2 : (combineLayer keccak256 (a :: t)).length ≤ g2 := by omega
                rw [ih g2 _ hg1 hg2]

/-- The loop on an empty hash list stores no layer. -/
theorem buildLayers_nil (keccak256 : Bytes → Bytes) : buildLayers keccak256 [] = [] := rfl

/-- The loop on a single hash stores that one layer and stops. -/
theorem buildLayers_single (keccak256 : Bytes → Bytes) (x : Bytes) :
    buildLayers keccak256 [x] = [[x]] := rfl

/-- With two or more hashes the loop stores the current layer and continues
from the combined next level. -/
theorem buildLayers_cons (keccak256 : Bytes → Bytes) :
    ∀ hashes : List Bytes, 2 ≤ hashes.length →
      buildLayers keccak256 hashes =
        hashes :: buildLayers keccak256 (combineLayer keccak256 hashes)
  | a :: b :: t, _ => by
      show (if (a :: b :: t).length = 1 then [a :: b :: t]
            else (a :: b :: t) ::
              buildLayersF keccak256 (b :: t).length (combineLayer keccak256 (a :: b :: t)))
          = _
      rw [if_neg (by simp)]
      congr 1
      apply buildLayersF_irrel
      · rw [combineLayer_length]
        simp
        omega
      · exact Nat.le_refl _

/-- Layer 0 of the built layer list is the starting hash list itself. -/
theorem buildLayers_head (keccak256 : Bytes → Bytes) :
    ∀ hashes : List Bytes, hashes ≠ [] →
      (buildLayers keccak256 hashes).get? 0 = some hashes
  | [], h => absurd rfl h
  | [x], _ => by rw [buildLayers_single]; rfl
  | _ :: _ :: _, _ => by rw [buildLayers_cons keccak256 _ (by simp)]; rfl

/-- Non-empty starting hashes give a non-empty layer list. -/
theorem buildLayers_ne_nil (keccak256 : Bytes → Bytes) (hashes : List Bytes)
    (h : hashes ≠ []) : buildLayers keccak256 hashes ≠ [] := by
  intro hc
  have := buildLayers_head keccak256 hashes h
  rw [hc] at this
  simp at this

/-- The loop stores exactly `⌈log2 n⌉ + 1` layers for `n ≥ 1` starting
hashes. -/
theorem buildLayers_length (keccak256 : Bytes → Bytes) :
    ∀ hashes : List Bytes, hashes ≠ [] →
      (buildLayers keccak256 hashes).length = Nat.clog 2 hashes.length + 1
  | [], h => absurd rfl h
  | [x], _ => by rw [buildLayers_single]; simp [Nat.clog_one_right]
  | a :: b :: t, _ => by
      have h2 : 2 ≤ (a :: b :: t).length := by simp
      rw [buildLayers_cons keccak256 _ h2, List.length_cons,
        buildLayers_length keccak256 (combineLayer keccak256 (a :: b :: t))
          (combineLayer_ne_nil keccak256 (by simp)),
        combineLayer_length, Nat.clog_of_two_le (by norm_num) h2,
        show (a :: b :: t).length + 2 - 1 = (a :: b :: t).length + 1 by omega]
termination_by hashes _ => hashes.length
decreasing_by
  simp [combineLayer_length]
  omega

/-- The last stored layer is a singleton. -/
theorem buildLayers_getLast (keccak256 : Bytes → Bytes) :
    ∀ hashes : List Bytes, hashes ≠ [] →
      ∃ r, (buildLayers keccak256 hashes).getLast? = some [r]
  | [], h => absurd rfl h
  | [x], _ => ⟨x, by rw [buildLayers_single]; rfl⟩
  | a :: b :: t, _ => by
      obtain ⟨r, hr⟩ :=
        buildLayers_getLast keccak256 (combineLayer keccak256 (a :: b :: t))
          (combineLayer_ne_nil keccak256 (by simp))
      refine ⟨r, ?_⟩
      rw [buildLayers_cons keccak256 _ (by simp)]
      cases hL : buildLayers keccak256 (combineLayer keccak256 (a :: b :: t)) with
      | nil =>
          exact absurd hL
            (buildLayers_ne_nil keccak256 _ (combineLayer_ne_nil keccak256 (by simp)))
      | cons y ys =>
          rw [hL] at hr
          rw [List.getLast?_cons_cons]
          exact hr
termination_by hashes _ => hashes.length
decreasing_by
  simp [combineLayer_length]
  omega

/-- Each stored layer with at least two hashes is followed by its combined
next level. -/
theorem buildLayers_chain (keccak256 : Bytes → Bytes) :
    ∀ (hashes : List Bytes) (k : Nat) (lk : List Bytes),
      (buildLayers keccak256 hashes).get? k = some lk → 2 ≤ lk.length →
      (buildLayers keccak256 hashes).get? (k + 1) = some (combineLayer keccak256 lk)
  | [], k, lk, h, _ => by rw [buildLayers_nil] at h; simp at h
  | [x], k, lk, h, h2 => by
      rw [buildLayers_single] at h
      cases k with
      | zero =>
          rw [List.get?_cons_zero] at h
          injection h with h
          subst h
          simp at h2
      | succ n => simp at h
  | a :: b :: t, k, lk, h, h2 => by
      rw [buildLayers_cons keccak256 _ (by simp)] at h ⊢
      cases k with
      | zero =>
          rw [List.get?_cons_zero] at h
          injection h with h
          subst h
          rw [List.get?_cons_succ]
          exact buildLayers_head keccak256 _ (combineLayer_ne_nil keccak256 (by simp))
      | succ n =>
          rw [List.get?_cons_succ] at h
          rw [List.get?_cons_succ]
          exact buildLayers_chain keccak256 (combineLayer keccak256 (a :: b :: t)) n lk h h2
termination_by hashes _ _ _ _ => hashes.length
decreasing_by
  simp [combineLayer_length]
  omega

/-- The root of a layer stack is found past its first layer. -/
theorem rootOf_cons (x : List Bytes) (L : List (List Bytes)) (h : L ≠ []) :
    rootOf (x :: L) = rootOf L := by
  cases L with
  | nil => exact absurd rfl h
  | cons y ys => rw [rootOf, rootOf, List.getLast?_cons_cons]

/-- Toggling the lowest bit commutes with adding two. -/
theorem xor_one_add_two (n : Nat) : (n + 2) ^^^ 1 = (n ^^^ 1) + 2 := by
  rw [xor_one_eq, xor_one_eq]
  split_ifs <;> omega

/-- If position `idx` of a layer holds `a` and the sibling position `idx ^ 1`
holds `b`, then position `idx / 2` of the combined next level holds their
pairwise hash. -/
theorem combineLayer_get?_sib (keccak256 : Bytes → Bytes) :
    ∀ (l : List Bytes) (idx : Nat) (a b : Bytes),
      l.get? idx = some a → l.get? (idx ^^^ 1) = some b →
      (combineLayer keccak256 l).get? (idx / 2) =
        some (internalHash keccak256 a (some b))
  | [], idx, a, b, h, _ => by simp at h
  | [x], idx, a, b, h, hs => by
      cases idx with
      | zero =>
          rw [show (0 : Nat) ^^^ 1 = 1 from by decide] at hs
          simp at hs
      | succ n => simp at h
  | x :: y :: rest, idx, a, b, h, hs =>
      match idx, h, hs with
      | 0, h, hs => by
          rw [List.get?_cons_zero] at h
          rw [show (0 : Nat) ^^^ 1 = 1 from by decide, List.get?_cons_succ,
            List.get?_cons_zero] at hs
          injection h with h
          injection hs with hs
          subst h
          subst hs
          rfl
      | 1, h, hs => by
          rw [List.get?_cons_succ, List.get?_cons_zero] at h
          rw [show (1 : Nat) ^^^ 1 = 0 from by decide, List.get?_cons_zero] at hs
          injection h with h
          injection hs with hs
          subst h
          subst hs
          rw [internalHash_comm]
          rfl
      | n + 2, h, hs => by
          rw [List.get?_cons_succ, List.get?_cons_succ] at h
          rw [xor_one_add_two, List.get?_cons_succ, List.get?_cons_succ] at hs
          rw [show (n + 2) / 2 = n / 2 + 1 from by omega]
          show (combineLayer keccak256 rest).get? (n / 2) = _
          exact combineLayer_get?_sib keccak256 rest n a b h hs

/-- If position `idx` of a layer holds `a` and the sibling position is out of
bounds, position `idx / 2` of the combined next level holds `a` unchanged. -/
theorem combineLayer_get?_carry (keccak256 : Bytes → Bytes) :
    ∀ (l : List Bytes) (idx : Nat) (a : Bytes),
      l.get? idx = some a → l.get? (idx ^^^ 1) = none →
      (combineLayer keccak256 l).get? (idx / 2) = some a
  | [], idx, a, h, _ => by simp at h
  | [x], idx, a, h, _ => by
      cases idx with
      | zero =>
          rw [List.get?_cons_zero] at h
          injection h with h
          subst h
          rfl
      | succ n => simp at h
  | x :: y :: rest, idx, a, h, hs =>
      match idx, h, hs with
      | 0, h, hs => by
          rw [show (0 : Nat) ^^^ 1 = 1 from by decide, List.get?_cons_succ,
            List.get?_cons_zero] at hs
          simp at hs
      | 1, h, hs => by
          rw [show (1 : Nat) ^^^ 1 = 0 from by decide, List.get?_cons_zero] at hs
          simp at hs
      | n + 2, h, hs => by
          rw [List.get?_cons_succ, List.get?_cons_succ] at h
          rw [xor_one_add_two, List.get?_cons_succ, List.get?_cons_succ] at hs
          rw [show (n + 2) / 2 = n / 2 + 1 from by omega]
          show (combineLayer keccak256 rest).get? (n / 2) = _
          exact combineLayer_get?_carry keccak256 rest n a h hs

/-- Folding the siblings that `getProofAux` collects, bottom-up from any
in-bounds starting position, reconstructs the root of the built layer
stack. -/
theorem buildLayers_fold (keccak256 : Bytes → Bytes) :
    ∀ (hashes : List Bytes) (idx : Nat) (a : Bytes), hashes.get? idx = some a →
      rootOf (buildLayers keccak256 hashes) =
        some (foldPairs keccak256 a
          (getProofAux (buildLayers keccak256 hashes) idx))
  | [], idx, a, h => by simp at h
  | [x], idx, a, h => by
      cases idx with
      | zero =>
          rw [List.get?_cons_zero] at h
          injection h with h
          subst h
          rw [buildLayers_single]
          rfl
      | succ n => simp at h
  | x :: y :: t, idx, a, h => by
      have h2 : 2 ≤ (x :: y :: t).length := by simp
      have hcne : combineLayer keccak256 (x :: y :: t) ≠ [] :=
        combineLayer_ne_nil keccak256 (by simp)
      rw [buildLayers_cons keccak256 _ h2,
        rootOf_cons _ _ (buildLayers_ne_nil keccak256 _ hcne)]
      show rootOf (buildLayers keccak256 (combineLayer keccak256 (x :: y :: t))) =
        some (foldPairs keccak256 a
          (((x :: y :: t).get? (idx ^^^ 1)).toList ++
            getProofAux
              (buildLayers keccak256 (combineLayer keccak256 (x :: y :: t)))
              (idx / 2)))
      cases hsib : (x :: y :: t).get? (idx ^^^ 1) with
      | some b =>
          exact buildLayers_fold keccak256 (combineLayer keccak256 (x :: y :: t))
            (idx / 2) (internalHash keccak256 a (some b))
            (combineLayer_get?_sib keccak256 (x :: y :: t) idx a b h hsib)
      | none =>
          exact buildLayers_fold keccak256 (combineLayer keccak256 (x :: y :: t))
            (idx / 2) a
            (combineLayer_get?_carry keccak256 (x :: y :: t) idx a h hsib)
termination_by hashes _ _ _ => hashes.length
decreasing_by
  all_goals simp [combineLayer_length]
  all_goals omega

/-- `buildLeaves` copies the identity byte sequences unchanged. -/
theorem buildLeaves_eq (data : List Bytes) : buildLeaves data = data :=
  List.map_id' data

/-- The `leafs` field stores the raw identity bytes. -/
theorem mkTree_leafs (keccak256 : Bytes → Bytes) (data : List Bytes) :
    (mkTree keccak256 data).leafs = data :=
  buildLeaves_eq data

/-- The `layers` field is the loop's layer list over the hashed leaves. -/
theorem mkTree_layers (keccak256 : Bytes → Bytes) (data : List Bytes) :
    (mkTree keccak256 data).layers =
      buildLayers keccak256 (data.map (nodeHash keccak256)) := by
  show buildLayers keccak256 ((buildLeaves data).map (nodeHash keccak256)) = _
  rw [buildLeaves_eq]

example : mkTree toyHash [[0], [1], [2]] = mkTree toyHash [[0], [1], [2]] := rfl

example : (mkTree toyHash [[0], [1], [2]]).layers.length = 3 := by decide

example : getRoot (mkTree toyHash []) = none := by decide

example : getProof (mkTree toyHash [[0]]) 5 = [] := by decide

/-! ## Claims -/

/-- C1 (Membership round-trip): for every Tree built from a non-empty ordered
list of identities and every index `i` with `0 ≤ i < N` (equivalently: whose
leaf lookup succeeds), verifying with the leaf at index `i`, the proof
returned by `getProof(i)`, and the tree's own root returns `true`. -/
theorem membership_roundtrip (keccak256 : Bytes → Bytes) (data : List Bytes)
    (idx : Nat) (leaf : Bytes)
    (h : (mkTree keccak256 data).leafs.get? idx = some leaf) :
    ∃ r, getRoot (mkTree keccak256 data) = some r ∧
      verifyProof keccak256 (mkTree keccak256 data) idx
        (getProof (mkTree keccak256 data) idx) r = some true := by
  rw [mkTree_leafs] at h
  have hm : (data.map (nodeHash keccak256)).get? idx
      = some (nodeHash keccak256 leaf) := by
    rw [List.get?_map, h]
    rfl
  have hfold := buildLayers_fold keccak256 (data.map (nodeHash keccak256)) idx
    (nodeHash keccak256 leaf) hm
  refine ⟨foldPairs keccak256 (nodeHash keccak256 leaf)
    (getProof (mkTree keccak256 data) idx), ?_, ?_⟩
  · show rootOf (mkTree keccak256 data).layers = _
    rw [mkTree_layers]
    rw [hfold]
    show _ = some (foldPairs keccak256 (nodeHash keccak256 leaf)
      (getProofAux (mkTree keccak256 data).layers idx))
    rw [mkTree_layers]
  · show ((mkTree keccak256 data).leafs.get? idx).map _ = some true
    rw [mkTree_leafs, h, Option.map_some']
    simp

/-- Witness for C1 at a concrete three-identity tree and index 1. -/
theorem membership_roundtrip_witness :
    (mkTree toyHash [[0], [1], [2]]).leafs.get? 1 = some [1] ∧
    ∃ r, getRoot (mkTree toyHash [[0], [1], [2]]) = some r ∧
      verifyProof toyHash (mkTree toyHash [[0], [1], [2]]) 1
        (getProof (mkTree toyHash [[0], [1], [2]]) 1) r = some true :=
  ⟨by decide, membership_roundtrip toyHash [[0], [1], [2]] 1 [1] (by decide)⟩

/-- C2 (Leaf domain separation): each occurrence of an identity in the input
list yields, at its own position of layer 0, the digest of the single byte
`0x00` prepended to the identity's raw bytes; layer 0 has one leaf hash per
input occurrence, in input order. -/
theorem leaf_domain_separation (keccak256 : Bytes → Bytes) (data : List Bytes)
    (i : Nat) (ident : Bytes) (h : data.get? i = some ident) :
    ∃ L0, (mkTree keccak256 data).layers.get? 0 = some L0 ∧
      L0.length = data.length ∧
      L0.get? i = some (keccak256 (0 :: ident)) := by
  have hne : data ≠ [] := by
    intro hc
    subst hc
    simp at h
  have hmne : data.map (nodeHash keccak256) ≠ [] := by
    simp [hne]
  refine ⟨data.map (nodeHash keccak256), ?_, by simp, ?_⟩
  · rw [mkTree_layers]
    exact buildLayers_head keccak256 _ hmne
  · rw [List.get?_map, h]
    rfl

/-- Witness for C2 at a concrete duplicated-identity list. -/
theorem leaf_domain_separation_witness :
    ([[5], [5], [7]] : List Bytes).get? 1 = some [5] ∧
    ∃ L0, (mkTree toyHash [[5], [5], [7]]).layers.get? 0 = some L0 ∧
      L0.length = ([[5], [5], [7]] : List Bytes).length ∧
      L0.get? 1 = some (toyHash (0 :: [5])) :=
  ⟨by decide, leaf_domain_separation toyHash [[5], [5], [7]] 1 [5] (by decide)⟩

/-- The spec-side lexicographic order agrees with the source's
`Buffer.compare`: `a` is less-or-equal to `b` exactly when the comparison is
not `gt`. -/
theorem lexLe_eq_true_iff : ∀ a b : Bytes,
    lexLe a b = true ↔ bufCompare a b ≠ Ordering.gt
  | [], [] => by simp [lexLe, bufCompare]
  | [], _ :: _ => by simp [lexLe, bufCompare]
  | _ :: _, [] => by simp [lexLe, bufCompare]
  | a :: as, b :: bs => by
      by_cases h1 : a < b
      · simp [lexLe, bufCompare, h1]
      · by_cases h2 : b < a
        · have hne : ¬a = b := by omega
          simp [lexLe, bufCompare, h1, h2, hne]
        · have hab : a = b := by omega
          simp [lexLe, bufCompare, h1, h2, hab, lexLe_eq_true_iff as bs]

/-- C3 (Internal-node combination rule): for every pair of present hashes the
combination is the digest of the byte `0x01` followed by the byte-wise
lexicographic minimum and then maximum of the two values, and the
combination is therefore commutative. -/
theorem internal_node_combination (keccak256 : Bytes → Bytes) (a b : Bytes) :
    internalHash keccak256 a (some b) =
      keccak256 (1 :: (specMin a b ++ specMax a b)) ∧
    internalHash keccak256 a (some b) = internalHash keccak256 b (some a) := by
  constructor
  · by_cases hgt : bufCompare a b = Ordering.gt
    · have hle : lexLe a b = false := by
        cases hv : lexLe a b
        · rfl
        · exact absurd hgt ((lexLe_eq_true_iff a b).mp hv)
      simp [internalHash, hgt, specMin, specMax, hle]
    · have hle : lexLe a b = true := (lexLe_eq_true_iff a b).mpr hgt
      simp [internalHash, hgt, specMin, specMax, hle]
  · exact internalHash_comm keccak256 a b

example :
    internalHash toyHash [9] (some [3]) = toyHash (1 :: ([3] ++ [9])) ∧
    internalHash toyHash [3] (some [9]) = toyHash (1 :: ([3] ++ [9])) := by decide

/-- C4 (Odd-node carry-forward): in every constructed tree, a stored layer of
odd length greater than one is followed by a layer of exactly
`⌈len / 2⌉ = (len + 1) / 2` elements whose last element is byte-identical to
the last element of the odd layer. -/
theorem odd_carry_forward (keccak256 : Bytes → Bytes) (data : List Bytes)
    (k : Nat) (layerK : List Bytes)
    (hk : (mkTree keccak256 data).layers.get? k = some layerK)
    (hodd : layerK.length % 2 = 1) (hgt : 1 < layerK.length) :
    ∃ layerK1, (mkTree keccak256 data).layers.get? (k + 1) = some layerK1 ∧
      layerK1.length = (layerK.length + 1) / 2 ∧
      layerK1.getLast? = layerK.getLast? := by
  rw [mkTree_layers] at hk ⊢
  exact ⟨combineLayer keccak256 layerK,
    buildLayers_chain keccak256 _ k layerK hk (by omega),
    combineLayer_length keccak256 layerK,
    combineLayer_getLast_odd keccak256 layerK hodd⟩

/-- Witness for C4: a six-identity tree whose layer 1 has odd length 3. -/
theorem odd_carry_forward_witness :
    (mkTree toyHash [[0], [1], [2], [3], [4], [5]]).layers.get? 1 =
        some [toyHash (1 :: (toyHash [0, 0] ++ toyHash [0, 1])),
          toyHash (1 :: (toyHash [0, 2] ++ toyHash [0, 3])),
          toyHash (1 :: (toyHash [0, 4] ++ toyHash [0, 5]))] ∧
    (∃ layerK1,
      (mkTree toyHash [[0], [1], [2], [3], [4], [5]]).layers.get? 2 = some layerK1 ∧
      layerK1.length = 2 ∧
      layerK1.getLast? =
        some (toyHash (1 :: (toyHash [0, 4] ++ toyHash [0, 5])))) := by
  constructor
  · decide
  · exact odd_carry_forward toyHash [[0], [1], [2], [3], [4], [5]] 1
      [toyHash (1 :: (toyHash [0, 0] ++ toyHash [0, 1])),
        toyHash (1 :: (toyHash [0, 2] ++ toyHash [0, 3])),
        toyHash (1 :: (toyHash [0, 4] ++ toyHash [0, 5]))]
      (by decide) (by decide) (by decide)

/-- C5 (Layer count): a tree built from `N ≥ 1` identities has exactly
`⌈log2 N⌉ + 1` layers (`Nat.clog 2` is the ceiling base-2 logarithm, `0` at
`N = 1`), and the last layer is a singleton holding the root. -/
theorem layer_count (keccak256 : Bytes → Bytes) (data : List Bytes)
    (h : data ≠ []) :
    (mkTree keccak256 data).layers.length = Nat.clog 2 data.length + 1 ∧
    ∃ r, (mkTree keccak256 data).layers.getLast? = some [r] ∧
      getRoot (mkTree keccak256 data) = some r := by
  have hmne : data.map (nodeHash keccak256) ≠ [] := by simp [h]
  constructor
  · rw [mkTree_layers, buildLayers_length keccak256 _ hmne, List.length_map]
  · obtain ⟨r, hr⟩ := buildLayers_getLast keccak256 (data.map (nodeHash keccak256)) hmne
    refine ⟨r, ?_, ?_⟩
    · rw [mkTree_layers, hr]
    · show rootOf (mkTree keccak256 data).layers = some r
      rw [mkTree_layers, rootOf, hr]
      rfl

/-- Witness for C5 at a concrete five-identity tree (`⌈log2 5⌉ = 3`). -/
theorem layer_count_witness :
    ([[0], [1], [2], [3], [4]] : List Bytes) ≠ [] ∧
    ((mkTree toyHash [[0], [1], [2], [3], [4]]).layers.length =
        Nat.clog 2 ([[0], [1], [2], [3], [4]] : List Bytes).length + 1 ∧
      ∃ r, (mkTree toyHash [[0], [1], [2], [3], [4]]).layers.getLast? = some [r] ∧
        getRoot (mkTree toyHash [[0], [1], [2], [3], [4]]) = some r) :=
  ⟨by decide, layer_count toyHash [[0], [1], [2], [3], [4]] (by decide)⟩

/-- C6 counterexample: `getProof` performs no range validation.  On the tree
built from the single identity `[0]`, the out-of-range index 5 silently
yields the empty proof — the very value a caller cannot tell apart from a
legitimate reply — and the out-of-range index 1 silently yields a wrong
non-empty proof; no `InvalidIndex` failure occurs. -/
theorem getProof_no_invalid_index_cex :
    getProof (mkTree toyHash [[0]]) 5 = [] ∧
    getProof (mkTree toyHash [[0]]) 1 = [nodeHash toyHash [0]] ∧
    getProof (mkTree toyHash [[0]]) 5 = getProof (mkTree toyHash [[0]]) 0 := by
  decide

/-- C6 amended: `getProof` never fails on an out-of-range index; it silently
returns a proof list.  On every single-identity tree, every index `≥ 2`
returns the empty proof and index 1 returns the stored leaf hash as a bogus
one-element proof. -/
theorem getProof_out_of_range_silent (keccak256 : Bytes → Bytes) (ident : Bytes)
    (idx : Nat) (h : 2 ≤ idx) :
    getProof (mkTree keccak256 [ident]) idx = [] ∧
    getProof (mkTree keccak256 [ident]) 1 = [nodeHash keccak256 ident] := by
  have hl : (mkTree keccak256 [ident]).layers = [[nodeHash keccak256 ident]] := by
    rw [mkTree_layers]
    rfl
  have hx : 1 ≤ idx ^^^ 1 := by
    rw [xor_one_eq]
    split_ifs <;> omega
  constructor
  · show getProofAux (mkTree keccak256 [ident]).layers idx = []
    rw [hl]
    show ([nodeHash keccak256 ident].get? (idx ^^^ 1)).toList ++ [] = []
    rw [List.get?_eq_none.mpr (by simpa using hx)]
    rfl
  · show getProofAux (mkTree keccak256 [ident]).layers 1 = _
    rw [hl]
    rfl

/-- Witness for the amended C6 at index 5. -/
theorem getProof_out_of_range_silent_witness :
    2 ≤ 5 ∧
    (getProof (mkTree toyHash [[0]]) 5 = [] ∧
      getProof (mkTree toyHash [[0]]) 1 = [nodeHash toyHash [0]]) :=
  ⟨by decide, getProof_out_of_range_silent toyHash [0] 5 (by decide)⟩

/-- C7 (Verifier mismatch behaviour): for every stored leaf, every proof of
any length, and every supplied root, index-based verification returns a
plain boolean — `true` exactly when folding the proof from the leaf hash
reproduces the supplied root byte-for-byte, `false` on any mismatch — and
never a thrown error; `verifyRoot` behaves identically. -/
theorem verifier_mismatch_boolean (keccak256 : Bytes → Bytes) (t : MerkleTree)
    (idx : Nat) (leaf : Bytes) (proof : List Bytes) (root : Bytes)
    (h : t.leafs.get? idx = some leaf) :
    (∃ b : Bool, verifyProof keccak256 t idx proof root = some b) ∧
    (verifyProof keccak256 t idx proof root = some true ↔
      foldPairs keccak256 (nodeHash keccak256 leaf) proof = root) ∧
    (verifyProof keccak256 t idx proof root = some false ↔
      foldPairs keccak256 (nodeHash keccak256 leaf) proof ≠ root) ∧
    verifyRoot keccak256 t idx proof root = verifyProof keccak256 t idx proof root := by
  refine ⟨⟨foldPairs keccak256 (nodeHash keccak256 leaf) proof == root, ?_⟩, ?_, ?_, rfl⟩
  · rw [verifyProof, h, Option.map_some']
  · rw [verifyProof, h, Option.map_some']
    simp
  · rw [verifyProof, h, Option.map_some']
    simp

/-- Witness for C7: a mismatching one-element proof on a two-identity tree. -/
theorem verifier_mismatch_boolean_witness :
    (mkTree toyHash [[0], [1]]).leafs.get? 0 = some [0] ∧
    ((∃ b : Bool,
        verifyProof toyHash (mkTree toyHash [[0], [1]]) 0 [[9]] [7] = some b) ∧
      (verifyProof toyHash (mkTree toyHash [[0], [1]]) 0 [[9]] [7] = some true ↔
        foldPairs toyHash (nodeHash toyHash [0]) [[9]] = [7]) ∧
      (verifyProof toyHash (mkTree toyHash [[0], [1]]) 0 [[9]] [7] = some false ↔
        foldPairs toyHash (nodeHash toyHash [0]) [[9]] ≠ [7]) ∧
      verifyRoot toyHash (mkTree toyHash [[0], [1]]) 0 [[9]] [7] =
        verifyProof toyHash (mkTree toyHash [[0], [1]]) 0 [[9]] [7]) :=
  ⟨by decide, verifier_mismatch_boolean toyHash (mkTree toyHash [[0], [1]])
    0 [0] [[9]] [7] (by decide)⟩

/-- C8 counterexample: the verify-by-raw-identity entry point `verifyClaim`
cannot decide membership against an independently supplied root.  The root
of the one-identity allowlist `[[1]]` is perfectly recomputed from the
candidate `[1]` with the empty proof, yet `verifyClaim` on a locally built
tree over `[[0]]` answers `false`: the method takes no root argument and
compares only against the local tree's own root. -/
theorem verifyClaim_external_root_cex :
    getRoot (mkTree toyHash [[1]]) = some (nodeHash toyHash [1]) ∧
    foldPairs toyHash (nodeHash toyHash [1]) [] = nodeHash toyHash [1] ∧
    nodeHash toyHash [1] ≠ nodeHash toyHash [0] ∧
    getRoot (mkTree toyHash [[0]]) = some (nodeHash toyHash [0]) ∧
    verifyClaim toyHash (mkTree toyHash [[0]]) [1] [] = some false := by
  decide

/-- C8 amended: `verifyClaim` verifies the raw candidate bytes and proof
only against the root of the locally constructed tree (`this.getRoot()`);
it accepts no externally supplied root, and its verdict depends on the tree
only through that local root. -/
theorem verifyClaim_local_root_only (keccak256 : Bytes → Bytes) (t : MerkleTree)
    (item : Bytes) (proof : List Bytes) (r : Bytes) (h : getRoot t = some r) :
    (verifyClaim keccak256 t item proof = some true ↔
      foldPairs keccak256 (nodeHash keccak256 item) proof = r) ∧
    ∀ t2 : MerkleTree, getRoot t2 = getRoot t →
      verifyClaim keccak256 t2 item proof = verifyClaim keccak256 t item proof := by
  constructor
  · rw [verifyClaim, h, Option.map_some']
    simp
  · intro t2 h2
    rw [verifyClaim, verifyClaim, h2]

/-- Witness for the amended C8 on a concrete one-identity tree. -/
theorem verifyClaim_local_root_only_witness :
    getRoot (mkTree toyHash [[0]]) = some (nodeHash toyHash [0]) ∧
    ((verifyClaim toyHash (mkTree toyHash [[0]]) [0] [] = some true ↔
        foldPairs toyHash (nodeHash toyHash [0]) [] = nodeHash toyHash [0]) ∧
      ∀ t2 : MerkleTree, getRoot t2 = getRoot (mkTree toyHash [[0]]) →
        verifyClaim toyHash t2 [0] [] =
          verifyClaim toyHash (mkTree toyHash [[0]]) [0] []) :=
  ⟨by decide, verifyClaim_local_root_only toyHash (mkTree toyHash [[0]])
    [0] [] (nodeHash toyHash [0]) (by decide)⟩

/-- C9 (Empty-allowlist fail-closed): a tree built from zero identities
stores no layers, `getRoot` produces no root (the JavaScript call throws),
and both verifier entry points fail on it rather than answer — in
particular no call ever returns `true`, so an empty allowlist never admits
anyone. -/
theorem empty_allowlist_fail_closed (keccak256 : Bytes → Bytes) :
    (mkTree keccak256 []).layers = [] ∧
    getRoot (mkTree keccak256 []) = none ∧
    (∀ (item : Bytes) (proof : List Bytes),
      verifyClaim keccak256 (mkTree keccak256 []) item proof = none) ∧
    (∀ (idx : Nat) (proof : List Bytes) (root : Bytes),
      verifyProof keccak256 (mkTree keccak256 []) idx proof root = none) := by
  refine ⟨rfl, rfl, fun _ _ => rfl, fun idx _ _ => ?_⟩
  show (((mkTree keccak256 []).leafs).get? idx).map _ = none
  rw [mkTree_leafs]
  cases idx <;> rfl

/-- C10 (Stored leaves vs layer 0): `leafs` stores the raw, unhashed byte
representation of each input identity in order; layer 0 at each index is
`nodeHash` of the stored leaf; and the index-based verifier recomputes the
leaf hash from `leafs` alone — trees agreeing on `leafs` verify
identically, whatever their stored layers. -/
theorem leafs_layer0_invariant (keccak256 : Bytes → Bytes) (data : List Bytes)
    (i : Nat) (ident : Bytes) (h : data.get? i = some ident) :
    (mkTree keccak256 data).leafs.get? i = some ident ∧
    (∃ L0, (mkTree keccak256 data).layers.get? 0 = some L0 ∧
      L0.get? i = some (nodeHash keccak256 ident)) ∧
    ∀ t2 : MerkleTree, t2.leafs = (mkTree keccak256 data).leafs →
      ∀ (proof : List Bytes) (root : Bytes),
        verifyProof keccak256 t2 i proof root =
          verifyProof keccak256 (mkTree keccak256 data) i proof root := by
  have hne : data ≠ [] := by
    intro hc
    subst hc
    simp at h
  refine ⟨by rw [mkTree_leafs]; exact h, ?_, ?_⟩
  · refine ⟨data.map (nodeHash keccak256), ?_, ?_⟩
    · rw [mkTree_layers]
      exact buildLayers_head keccak256 _ (by simp [hne])
    · rw [List.get?_map, h]
      rfl
  · intro t2 h2 proof root
    rw [verifyProof, verifyProof, h2]

/-- Witness for C10 at a concrete three-identity tree. -/
theorem leafs_layer0_invariant_witness :
    ([[4], [5], [6]] : List Bytes).get? 2 = some [6] ∧
    ((mkTree toyHash [[4], [5], [6]]).leafs.get? 2 = some [6] ∧
      (∃ L0, (mkTree toyHash [[4], [5], [6]]).layers.get? 0 = some L0 ∧
        L0.get? 2 = some (nodeHash toyHash [6])) ∧
      ∀ t2 : MerkleTree, t2.leafs = (mkTree toyHash [[4], [5], [6]]).leafs →
        ∀ (proof : List Bytes) (root : Bytes),
          verifyProof toyHash t2 2 proof root =
            verifyProof toyHash (mkTree toyHash [[4], [5], [6]]) 2 proof root) :=
  ⟨by decide, leafs_layer0_invariant toyHash [[4], [5], [6]] 2 [6] (by decide)⟩
